import Mathlib

/-!
Verification development for the hoopshype-rumors repository
(src/update_rumors.py and src/create_latest_json.py).

The two Python scripts maintain a sharded JSON dataset of rumor records
(parts 1..7), a derived "latest 100" projection file and a summary index
file.  This file gives a shallow embedding of the data model and of the
operations of both scripts, and proves the frozen claims about them.

Modelling conventions:
  * a shard file is an `Option (List Rumor)`; `none` models a missing
    (or unreadable, hence skipped) part file, `some rs` a loaded one;
    the list of parts 1..7 is a `List (Option (List Rumor))`, part `i`
    sitting at position `i - 1`;
  * Python's in-memory `set` of fingerprint strings is modelled as a
    `List String` used only through membership, which is equivalent;
  * `datetime` values obtained by `datetime.fromisoformat` on a
    `YYYY-MM-DD` string are modelled by the natural number
    `y * 10000 + m * 100 + d`, whose order agrees with the order of the
    corresponding `datetime` objects;
  * string comparison (`<` on Python `str`) is codepoint-lexicographic,
    modelled by the lexicographic order on `String.toList`.
-/

set_option maxRecDepth 4000

namespace HH

/-- Record shape produced by `scrape_rumors_for_date` and stored in the
shard files (`rumor_data` dict in src/update_rumors.py, lines 106-114). -/
structure Rumor where
  date : String
  archive_date : String
  text : String
  quote : String
  outlet : String
  source_url : String
  tags : List String
deriving DecidableEq, Repr

/-- Content of `rumors_index.json` as far as update_rumors.py touches it
(lines 306-329): the `last_updated` and `total_rumors` fields. -/
structure IndexMeta where
  last_updated : String
  total_rumors : Nat
deriving DecidableEq, Repr

/-- The files the scripts read and write: the seven shard part files,
`hoopshype_rumors_latest.json` and `rumors_index.json`.  `none` models
an absent file. -/
structure FileState where
  shards : List (Option (List Rumor))
  latest : Option (List Rumor)
  indexFile : Option IndexMeta
deriving DecidableEq, Repr

/-- Codepoint-lexicographic strict comparison of strings, the order
Python uses for `str` comparison; evaluable by the kernel. -/
def strlt (s t : String) : Bool := decide (s.toList < t.toList)

/-- Fingerprint of a record: `r['text'][:100] if r['text'] else ''`
(src/update_rumors.py lines 37 and 233). -/
def fingerprint (r : Rumor) : String :=
  if r.text = "" then "" else r.text.take 100

/-- Embedding of `load_existing_rumors` (src/update_rumors.py lines
26-44): the fingerprints of all records of all readable shard files,
as a membership set. -/
def load_existing_rumors (shards : List (Option (List Rumor))) : List String :=
  (shards.map (fun os => (os.getD []).map fingerprint)).flatten

/-- Embedding of the per-bucket duplicate filter (src/update_rumors.py
lines 230-236): keep a candidate iff its fingerprint is non-empty and
not in `seen`, adding accepted fingerprints to `seen` immediately.
Returns the accepted records and the final fingerprint set. -/
def filterNew : List Rumor → List String → List Rumor × List String
  | [], seen => ([], seen)
  | c :: cs, seen =>
    let fp := fingerprint c
    if fp ≠ "" ∧ fp ∉ seen then
      let rest := filterNew cs (fp :: seen)
      (c :: rest.1, rest.2)
    else
      filterNew cs seen

/-- Accumulation of `truly_new` records over the date loop
(src/update_rumors.py lines 221-243): each day's scraped records are
filtered against the evolving fingerprint set, accepted records are
appended in order. -/
def collectNew : List (List Rumor) → List String → List Rumor
  | [], _ => []
  | day :: days, seen =>
    let p := filterNew day seen
    p.1 ++ collectNew days p.2

/-- Outcome of one bucket fetch, abstracting the HTTP transport and the
HTML extraction of src/update_rumors.py lines 94-186: an exception
during request or parsing, or a response with a status code and the raw
candidate records extracted from the page. -/
inductive FetchOutcome where
  | failure
  | response (status : Nat) (cands : List Rumor)
deriving DecidableEq, Repr

/-- Embedding of `scrape_rumors_for_date` (src/update_rumors.py lines
94-194): any exception yields `[]` (lines 192-194), a non-200 status
yields `[]` (lines 96-97), and otherwise the extracted candidates with
empty `text` are dropped (lines 187-188). -/
def scrape_rumors_for_date (o : FetchOutcome) : List Rumor :=
  match o with
  | .failure => []
  | .response status cands =>
    if status ≠ 200 then [] else cands.filter (fun r => decide (r.text ≠ ""))

end HH

namespace HH

/-- Digit value of a character, `ord(c) - ord('0')`. -/
def dval (c : Char) : Nat := c.toNat - 48

/-- Value of a digit string read in base 10. -/
def digitsVal (l : List Char) : Nat := l.foldl (fun a c => a * 10 + dval c) 0

/-- Embedding of `datetime.fromisoformat` on a `YYYY-MM-DD` string
followed by comparison of the resulting `datetime` objects
(src/update_rumors.py line 59): a valid fixed-width date parses to
`y * 10000 + m * 100 + d` (the order of these numbers is the order of
the dates); anything else raises, modelled as `none`. -/
def fromisoformat (s : String) : Option Nat :=
  match s.toList with
  | [y1, y2, y3, y4, '-', n1, n2, '-', d1, d2] =>
    if (y1.isDigit && y2.isDigit && y3.isDigit && y4.isDigit &&
        n1.isDigit && n2.isDigit && d1.isDigit && d2.isDigit) then
      some (digitsVal [y1, y2, y3, y4, n1, n2, d1, d2])
    else none
  | _ => none

/-- Parsed value of a date string (0 when unparsable). -/
def valOf (s : String) : Nat := (fromisoformat s).getD 0

/-- Embedding of `max(rumors, key=lambda x: x['archive_date'])`
(src/update_rumors.py line 58): first record whose `archive_date` is
lexicographically maximal. -/
def maxByDate (r : Rumor) (rs : List Rumor) : Rumor :=
  rs.foldl (fun best x => if strlt best.archive_date x.archive_date then x else best) r

/-- One iteration of the shard scan of `load_latest_date`
(src/update_rumors.py lines 51-68): a missing or empty shard changes
nothing; otherwise the shard's lexicographically latest `archive_date`
is parsed (an unparsable date raises, skipping the shard) and kept if
it beats the accumulator. -/
def stepShard (acc : Option Nat) (os : Option (List Rumor)) : Option Nat :=
  match os with
  | none => acc
  | some [] => acc
  | some (r :: rs) =>
    match fromisoformat (maxByDate r rs).archive_date with
    | none => acc
    | some v =>
      match acc with
      | none => some v
      | some w => if w < v then some v else some w

/-- Embedding of `load_latest_date` (src/update_rumors.py lines 46-74):
scan all shards for the latest archive date; if none is found, return
yesterday relative to the run's clock (passed in as `yesterday`). -/
def load_latest_date (shards : List (Option (List Rumor))) (yesterday : Nat) : Nat :=
  (shards.foldl stepShard none).getD yesterday

/-- Archive dates of one shard file (empty for a missing shard). -/
def shardDates (os : Option (List Rumor)) : List String :=
  (os.getD []).map (fun r => r.archive_date)

/-- Archive dates of all records of all shards. -/
def allDates (shards : List (Option (List Rumor))) : List String :=
  (shards.map shardDates).flatten

/-- Embedding of the `r['_part'] = part_num; r['_idx'] = i` bookkeeping
(src/create_latest_json.py lines 20-24, src/update_rumors.py lines
341-345): each loaded record paired with its part number and its
position within the part. -/
def addKeys (shards : List (Option (List Rumor))) : List (Rumor × Nat × Nat) :=
  (shards.enum.map (fun pi =>
    match pi.2 with
    | none => []
    | some rs => rs.enum.map (fun ir => (ir.2, pi.1 + 1, ir.1)))).flatten

/-- Sort key `(x['archive_date'], x['_part'], x['_idx'])` of a keyed
record. -/
def keyOf (x : Rumor × Nat × Nat) : String × Nat × Nat :=
  (x.1.archive_date, x.2.1, x.2.2)

/-- Python tuple comparison `(date, part, idx) <= (date, part, idx)`:
lexicographic, with codepoint order on the date strings. -/
def keyLe (a b : String × Nat × Nat) : Bool :=
  if strlt a.1 b.1 then true
  else if strlt b.1 a.1 then false
  else if a.2.1 < b.2.1 then true
  else if b.2.1 < a.2.1 then false
  else decide (a.2.2 ≤ b.2.2)

/-- Order in which `list.sort(key=..., reverse=True)` leaves the keyed
records: `a` before `b` iff `b`'s key is at most `a`'s key
(descending).  The keys of distinct loaded records are distinct (part
and index identify the position), so any correct sort yields the same
list as Python's stable sort. -/
def recOrder (a b : Rumor × Nat × Nat) : Prop := keyLe (keyOf b) (keyOf a) = true

instance recOrder.decRel : DecidableRel recOrder := fun a b => by
  unfold recOrder; infer_instance

/-- The keyed records sorted by `(archive_date, _part, _idx)` all
descending, truncated to the first 100
(src/create_latest_json.py lines 36-42). -/
def latestKeyed (shards : List (Option (List Rumor))) : List (Rumor × Nat × Nat) :=
  (List.insertionSort recOrder (addKeys shards)).take 100

/-- The list written to `hoopshype_rumors_latest.json`: the newest 100
records with the `_part`/`_idx` bookkeeping stripped
(src/create_latest_json.py lines 42-49). -/
def latest100 (shards : List (Option (List Rumor))) : List Rumor :=
  (latestKeyed shards).map (fun x => x.1)

/-- Total record count over all readable parts (src/update_rumors.py
lines 313-320). -/
def totalCount (shards : List (Option (List Rumor))) : Nat :=
  (shards.map (fun os => (os.getD []).length)).sum

/-- Embedding of `create_latest_json.main` (src/create_latest_json.py
lines 9-51) and of the unconditional projection refresh block of
`update_rumors.main` (lines 334-367): when no record exists in any
shard nothing is written (the previous projection file is untouched);
otherwise the projection file is replaced by the newest-100 list. -/
def rebuildLatest (st : FileState) : FileState :=
  if addKeys st.shards = [] then st
  else { st with latest := some (latest100 st.shards) }

/-- Core of `update_rumors.main` (src/update_rumors.py lines 196-367)
after the per-day scraping has produced `days`, the per-bucket record
lists in chronological order.  Returns the final file state and the
run's accepted new records in fetch order. -/
def runScraped (st : FileState) (days : List (List Rumor)) (nowIso : String) :
    FileState × List Rumor :=
  let existing := load_existing_rumors st.shards
  let newRumors := collectNew days existing
  if newRumors = [] then
    (rebuildLatest st, newRumors)
  else
    let part7old := (st.shards.getD 6 none).getD []
    let part7new := part7old ++ newRumors.reverse
    let shards1 := st.shards.set 6 (some part7new)
    let st1 : FileState :=
      { shards := shards1, latest := some (latest100 shards1), indexFile := st.indexFile }
    let st2 : FileState :=
      match st1.indexFile with
      | none => st1
      | some _ => { st1 with indexFile := some ⟨nowIso, totalCount shards1⟩ }
    (rebuildLatest st2, newRumors)

/-- Embedding of one full run of `update_rumors.main`: scrape each
bucket, filter, append the reversed accepted records to part 7
(lines 246-267), write the projection file (lines 272-304 and 334-367)
and refresh `rumors_index.json` when it is readable (lines 306-329). -/
def run (st : FileState) (buckets : List FetchOutcome) (nowIso : String) :
    FileState × List Rumor :=
  runScraped st (buckets.map scrape_rumors_for_date) nowIso

/-- Outcome of one shard-file write: complete, or interrupted after `k`
records of the new content were serialized. -/
inductive WriteOutcome where
  | ok
  | failAfter (k : Nat)
deriving DecidableEq, Repr

/-- Model of `open(path, 'w')` followed by `json.dump(content, f)`
(src/update_rumors.py lines 266-267): opening with mode `'w'`
truncates the file immediately, and `json.dump` streams the records;
an exception after `k` records leaves a prefix of the new content on
disk (in particular the empty file for `k = 0`), never the previous
content. -/
def writeJsonList (content : List Rumor) (o : WriteOutcome) : List Rumor :=
  match o with
  | .ok => content
  | .failAfter k => content.take k

/-- Embedding of the append step of `update_rumors.main` (lines
255-267): the active shard (part 7) is loaded, the run's accepted
records are appended reversed, and the result is written back with a
plain truncating write whose outcome is `o`. -/
def appendToActiveShard (old newRecs : List Rumor) (o : WriteOutcome) : List Rumor :=
  writeJsonList (old ++ newRecs.reverse) o

lemma strlt_iff (s t : String) : strlt s t = true ↔ s < t := by
  unfold strlt
  rw [decide_eq_true_iff]
  exact String.lt_iff_toList_lt.symm

lemma filterNew_accepted (cs : List Rumor) :
    ∀ (seen : List String) (r : Rumor), r ∈ (filterNew cs seen).1 →
      fingerprint r ∉ seen ∧ fingerprint r ≠ "" := by
  induction cs with
  | nil => intro seen r hr; simp [filterNew] at hr
  | cons c cs ih =>
    intro seen r hr
    by_cases h : fingerprint c ≠ "" ∧ fingerprint c ∉ seen
    · simp only [filterNew, if_pos h] at hr
      rcases List.mem_cons.mp hr with rfl | hr
      · exact ⟨h.2, h.1⟩
      · have := ih (fingerprint c :: seen) r hr
        exact ⟨fun hs => this.1 (List.mem_cons_of_mem _ hs), this.2⟩
    · simp only [filterNew, if_neg h] at hr
      exact ih seen r hr

lemma filterNew_nodup (cs : List Rumor) :
    ∀ seen : List String, ((filterNew cs seen).1.map fingerprint).Nodup := by
  induction cs with
  | nil => intro seen; simp [filterNew]
  | cons c cs ih =>
    intro seen
    by_cases h : fingerprint c ≠ "" ∧ fingerprint c ∉ seen
    · simp only [filterNew, if_pos h, List.map_cons]
      refine List.nodup_cons.mpr ⟨?_, ih _⟩
      intro hmem
      rcases List.mem_map.mp hmem with ⟨r, hr, hfp⟩
      have := (filterNew_accepted cs _ r hr).1
      exact this (hfp ▸ List.mem_cons_self _ _)
    · simp only [filterNew, if_neg h]
      exact ih seen

lemma filterNew_findq (cs : List Rumor) :
    ∀ (seen : List String) (f : String), f ≠ "" → f ∉ seen →
      (filterNew cs seen).1.find? (fun r => fingerprint r == f) =
        cs.find? (fun r => fingerprint r == f) := by
  induction cs with
  | nil => intro seen f _ _; simp [filterNew]
  | cons c cs ih =>
    intro seen f hf hfs
    by_cases h : fingerprint c ≠ "" ∧ fingerprint c ∉ seen
    · simp only [filterNew, if_pos h]
      by_cases hcf : fingerprint c = f
      · rw [List.find?_cons_of_pos _ (by simp [hcf]), List.find?_cons_of_pos _ (by simp [hcf])]
      · rw [List.find?_cons_of_neg _ (by simp [hcf]), List.find?_cons_of_neg _ (by simp [hcf])]
        exact ih _ f hf (by
          intro hmem
          rcases List.mem_cons.mp hmem with heq | hmem
          · exact hcf heq.symm
          · exact hfs hmem)
    · have hcf : fingerprint c ≠ f := by
        intro heq
        rcases not_and_or.mp h with h1 | h2
        · exact hf (heq ▸ not_not.mp h1)
        · exact hfs (heq ▸ not_not.mp h2)
      simp only [filterNew, if_neg h]
      rw [List.find?_cons_of_neg _ (by simp [hcf])]
      exact ih seen f hf hfs

lemma filterNew_append (xs : List Rumor) :
    ∀ (ys : List Rumor) (seen : List String),
      filterNew (xs ++ ys) seen =
        ((filterNew xs seen).1 ++ (filterNew ys (filterNew xs seen).2).1,
          (filterNew ys (filterNew xs seen).2).2) := by
  induction xs with
  | nil => intro ys seen; simp [filterNew]
  | cons c cs ih =>
    intro ys seen
    by_cases h : fingerprint c ≠ "" ∧ fingerprint c ∉ seen
    · simp only [List.cons_append, filterNew, if_pos h, List.append_eq, ih]
    · simp only [List.cons_append, filterNew, if_neg h, List.append_eq, ih]

lemma collectNew_eq (days : List (List Rumor)) :
    ∀ seen : List String, collectNew days seen = (filterNew days.flatten seen).1 := by
  induction days with
  | nil => intro seen; simp [collectNew, filterNew]
  | cons d days ih =>
    intro seen
    simp only [collectNew, List.flatten_cons, filterNew_append, ih]

lemma mem_load_existing {shards : List (Option (List Rumor))} {rs : List Rumor} {r : Rumor}
    (hrs : some rs ∈ shards) (hr : r ∈ rs) :
    fingerprint r ∈ load_existing_rumors shards := by
  unfold load_existing_rumors
  rw [List.mem_flatten]
  exact ⟨rs.map fingerprint, List.mem_map.mpr ⟨some rs, hrs, rfl⟩, List.mem_map.mpr ⟨r, hr, rfl⟩⟩

lemma isDigit_toNat {c : Char} (h : c.isDigit = true) : 48 ≤ c.toNat ∧ c.toNat ≤ 57 := by
  simp [Char.isDigit, Char.le_def] at h
  exact ⟨h.1, h.2⟩

lemma char_lt_toNat {a b : Char} (h : a < b) : a.toNat < b.toNat := by
  rw [Char.lt_iff_val_lt_val] at h
  exact h

lemma lexDate_val {a1 a2 a3 a4 b1 b2 c1 c2 z1 z2 z3 z4 w1 w2 v1 v2 : Char}
    (ha : (a1.isDigit && a2.isDigit && a3.isDigit && a4.isDigit &&
           b1.isDigit && b2.isDigit && c1.isDigit && c2.isDigit) = true)
    (hz : (z1.isDigit && z2.isDigit && z3.isDigit && z4.isDigit &&
           w1.isDigit && w2.isDigit && v1.isDigit && v2.isDigit) = true)
    (h : List.Lex (· < ·) [a1, a2, a3, a4, '-', b1, b2, '-', c1, c2]
           [z1, z2, z3, z4, '-', w1, w2, '-', v1, v2]) :
    digitsVal [a1, a2, a3, a4, b1, b2, c1, c2] <
      digitsVal [z1, z2, z3, z4, w1, w2, v1, v2] := by
  simp only [Bool.and_eq_true] at ha hz
  obtain ⟨⟨⟨⟨⟨⟨⟨ha1, ha2⟩, ha3⟩, ha4⟩, hb1⟩, hb2⟩, hc1⟩, hc2⟩ := ha
  obtain ⟨⟨⟨⟨⟨⟨⟨hz1, hz2⟩, hz3⟩, hz4⟩, hw1⟩, hw2⟩, hv1⟩, hv2⟩ := hz
  obtain ⟨la1, ua1⟩ := isDigit_toNat ha1
  obtain ⟨la2, ua2⟩ := isDigit_toNat ha2
  obtain ⟨la3, ua3⟩ := isDigit_toNat ha3
  obtain ⟨la4, ua4⟩ := isDigit_toNat ha4
  obtain ⟨lb1, ub1⟩ := isDigit_toNat hb1
  obtain ⟨lb2, ub2⟩ := isDigit_toNat hb2
  obtain ⟨lc1, uc1⟩ := isDigit_toNat hc1
  obtain ⟨lc2, uc2⟩ := isDigit_toNat hc2
  obtain ⟨lz1, uz1⟩ := isDigit_toNat hz1
  obtain ⟨lz2, uz2⟩ := isDigit_toNat hz2
  obtain ⟨lz3, uz3⟩ := isDigit_toNat hz3
  obtain ⟨lz4, uz4⟩ := isDigit_toNat hz4
  obtain ⟨lw1, uw1⟩ := isDigit_toNat hw1
  obtain ⟨lw2, uw2⟩ := isDigit_toNat hw2
  obtain ⟨lv1, uv1⟩ := isDigit_toNat hv1
  obtain ⟨lv2, uv2⟩ := isDigit_toNat hv2
  cases h with
  | rel h1 =>
    have := char_lt_toNat h1
    simp only [digitsVal, List.foldl, dval]
    omega
  | cons h =>
  cases h with
  | rel h2 =>
    have := char_lt_toNat h2
    simp only [digitsVal, List.foldl, dval]
    omega
  | cons h =>
  cases h with
  | rel h3 =>
    have := char_lt_toNat h3
    simp only [digitsVal, List.foldl, dval]
    omega
  | cons h =>
  cases h with
  | rel h4 =>
    have := char_lt_toNat h4
    simp only [digitsVal, List.foldl, dval]
    omega
  | cons h =>
  cases h with
  | rel h5 => exact absurd h5 (by decide)
  | cons h =>
  cases h with
  | rel h6 =>
    have := char_lt_toNat h6
    simp only [digitsVal, List.foldl, dval]
    omega
  | cons h =>
  cases h with
  | rel h7 =>
    have := char_lt_toNat h7
    simp only [digitsVal, List.foldl, dval]
    omega
  | cons h =>
  cases h with
  | rel h8 => exact absurd h8 (by decide)
  | cons h =>
  cases h with
  | rel h9 =>
    have := char_lt_toNat h9
    simp only [digitsVal, List.foldl, dval]
    omega
  | cons h =>
  cases h with
  | rel h10 =>
    have := char_lt_toNat h10
    simp only [digitsVal, List.foldl, dval]
    omega
  | cons h => cases h

lemma fromisoformat_shape {s : String} (h : (fromisoformat s).isSome) :
    ∃ a1 a2 a3 a4 b1 b2 c1 c2 : Char,
      s.toList = [a1, a2, a3, a4, '-', b1, b2, '-', c1, c2] ∧
      (a1.isDigit && a2.isDigit && a3.isDigit && a4.isDigit &&
       b1.isDigit && b2.isDigit && c1.isDigit && c2.isDigit) = true ∧
      fromisoformat s = some (digitsVal [a1, a2, a3, a4, b1, b2, c1, c2]) := by
  unfold fromisoformat at h ⊢
  split at h
  case h_1 a1 a2 a3 a4 b1 b2 c1 c2 heq =>
    rw [heq]
    split at h
    case isTrue hd => exact ⟨a1, a2, a3, a4, b1, b2, c1, c2, rfl, hd, by rw [if_pos hd]⟩
    case isFalse hd => simp at h
  case h_2 => simp at h

lemma valOf_lt {s t : String} (hs : (fromisoformat s).isSome) (ht : (fromisoformat t).isSome)
    (hlt : s < t) : valOf s < valOf t := by
  obtain ⟨a1, a2, a3, a4, b1, b2, c1, c2, hsl, hsd, hsv⟩ := fromisoformat_shape hs
  obtain ⟨z1, z2, z3, z4, w1, w2, v1, v2, htl, htd, htv⟩ := fromisoformat_shape ht
  have hlex : List.Lex (· < ·) s.toList t.toList := String.lt_iff_toList_lt.mp hlt
  rw [hsl, htl] at hlex
  have := lexDate_val hsd htd hlex
  simp only [valOf, hsv, htv, Option.getD_some]
  exact this

lemma valOf_le {s t : String} (hs : (fromisoformat s).isSome) (ht : (fromisoformat t).isSome)
    (hle : s ≤ t) : valOf s ≤ valOf t := by
  rcases lt_or_eq_of_le hle with hlt | rfl
  · exact le_of_lt (valOf_lt hs ht hlt)
  · exact le_refl _

lemma maxByDate_mem (rs : List Rumor) : ∀ r : Rumor, maxByDate r rs ∈ r :: rs := by
  induction rs with
  | nil => intro r; simp [maxByDate]
  | cons x rs ih =>
    intro r
    have hstep : maxByDate r (x :: rs) =
        maxByDate (if strlt r.archive_date x.archive_date then x else r) rs := rfl
    rw [hstep]
    have := ih (if strlt r.archive_date x.archive_date then x else r)
    rcases List.mem_cons.mp this with heq | hmem
    · rw [heq]
      split
      · exact List.mem_cons_of_mem _ (List.mem_cons_self _ _)
      · exact List.mem_cons_self _ _
    · exact List.mem_cons_of_mem _ (List.mem_cons_of_mem _ hmem)

lemma maxByDate_le (rs : List Rumor) :
    ∀ r : Rumor, ∀ x ∈ r :: rs, x.archive_date ≤ (maxByDate r rs).archive_date := by
  induction rs with
  | nil =>
    intro r x hx
    rcases List.mem_cons.mp hx with rfl | hx
    · exact le_refl _
    · simp at hx
  | cons y rs ih =>
    intro r x hx
    have hstep : maxByDate r (y :: rs) =
        maxByDate (if strlt r.archive_date y.archive_date then y else r) rs := rfl
    rw [hstep]
    have hhead : ∀ z : Rumor,
        z.archive_date ≤ (maxByDate z rs).archive_date :=
      fun z => ih z z (List.mem_cons_self _ _)
    rcases List.mem_cons.mp hx with rfl | hx
    · by_cases hc : strlt x.archive_date y.archive_date = true
      · calc x.archive_date ≤ y.archive_date := le_of_lt ((strlt_iff _ _).mp hc)
          _ ≤ _ := by rw [if_pos hc] at *; exact hhead y
      · rw [if_neg hc]
        exact hhead x
    · rcases List.mem_cons.mp hx with rfl | hx
      · by_cases hc : strlt r.archive_date x.archive_date = true
        · rw [if_pos hc]
          exact hhead x
        · have hyx : x.archive_date ≤ r.archive_date := by
            have : ¬ r.archive_date < x.archive_date := by
              intro hl
              exact hc ((strlt_iff _ _).mpr hl)
            exact not_lt.mp this
          rw [if_neg hc]
          exact le_trans hyx (hhead r)
      · exact ih _ x (List.mem_cons_of_mem _ hx)

lemma allDates_cons (os : Option (List Rumor)) (shards : List (Option (List Rumor))) :
    allDates (os :: shards) = shardDates os ++ allDates shards := by
  simp [allDates]

lemma fromisoformat_of_isSome {s : String} (h : (fromisoformat s).isSome) :
    fromisoformat s = some (valOf s) := by
  unfold valOf
  cases hf : fromisoformat s with
  | none => rw [hf] at h; simp at h
  | some v => simp

lemma stepShard_some (w : Nat) (os : Option (List Rumor)) :
    ∃ w1, stepShard (some w) os = some w1 ∧ w ≤ w1 := by
  cases os with
  | none => exact ⟨w, rfl, le_refl _⟩
  | some rs =>
    cases rs with
    | nil => exact ⟨w, rfl, le_refl _⟩
    | cons r rs =>
      cases hf : fromisoformat (maxByDate r rs).archive_date with
      | none => exact ⟨w, by simp [stepShard, hf], le_refl _⟩
      | some v =>
        by_cases hc : w < v
        · exact ⟨v, by simp [stepShard, hf, hc], le_of_lt hc⟩
        · exact ⟨w, by simp [stepShard, hf, hc], le_refl _⟩

lemma foldl_step_mono (shards : List (Option (List Rumor))) :
    ∀ w : Nat, ∃ w2, shards.foldl stepShard (some w) = some w2 ∧ w ≤ w2 := by
  induction shards with
  | nil => intro w; exact ⟨w, rfl, le_refl _⟩
  | cons os shards ih =>
    intro w
    obtain ⟨w1, hw1, hle1⟩ := stepShard_some w os
    obtain ⟨w2, hw2, hle2⟩ := ih w1
    refine ⟨w2, ?_, le_trans hle1 hle2⟩
    rw [List.foldl_cons, hw1]
    exact hw2

lemma foldl_step_reaches (shards : List (Option (List Rumor))) :
    ∀ (d : String), d ∈ allDates shards →
      (∀ e ∈ allDates shards, (fromisoformat e).isSome) →
      ∀ acc : Option Nat, ∃ w, shards.foldl stepShard acc = some w ∧ valOf d ≤ w := by
  induction shards with
  | nil => intro d hd; simp [allDates] at hd
  | cons os shards ih =>
    intro d hd hvalid acc
    rw [allDates_cons] at hd hvalid
    rcases List.mem_append.mp hd with hdh | hdt
    · -- the date is in the head shard
      match os with
      | none => simp [shardDates] at hdh
      | some [] => simp [shardDates] at hdh
      | some (r :: rs) =>
        rcases List.mem_map.mp hdh with ⟨x, hx, rfl⟩
        have hM : (maxByDate r rs) ∈ r :: rs := maxByDate_mem rs r
        have hMdate : (maxByDate r rs).archive_date ∈ shardDates (some (r :: rs)) :=
          List.mem_map.mpr ⟨maxByDate r rs, hM, rfl⟩
        have hMvalid : (fromisoformat (maxByDate r rs).archive_date).isSome :=
          hvalid _ (List.mem_append_left _ hMdate)
        have hdvalid : (fromisoformat x.archive_date).isSome :=
          hvalid _ (List.mem_append_left _ hdh)
        have hxle : x.archive_date ≤ (maxByDate r rs).archive_date :=
          maxByDate_le rs r x hx
        have hvle : valOf x.archive_date ≤ valOf (maxByDate r rs).archive_date :=
          valOf_le hdvalid hMvalid hxle
        have hsf : fromisoformat (maxByDate r rs).archive_date =
            some (valOf (maxByDate r rs).archive_date) := fromisoformat_of_isSome hMvalid
        have hstep : ∃ w1, stepShard acc (some (r :: rs)) = some w1 ∧
            valOf (maxByDate r rs).archive_date ≤ w1 := by
          cases acc with
          | none => exact ⟨_, by simp [stepShard, hsf], le_refl _⟩
          | some w0 =>
            by_cases hc : w0 < valOf (maxByDate r rs).archive_date
            · exact ⟨_, by simp [stepShard, hsf, hc], le_refl _⟩
            · exact ⟨w0, by simp [stepShard, hsf, hc], not_lt.mp hc⟩
        obtain ⟨w1, hw1, hle1⟩ := hstep
        obtain ⟨w2, hw2, hle2⟩ := foldl_step_mono shards w1
        refine ⟨w2, ?_, le_trans hvle (le_trans hle1 hle2)⟩
        rw [List.foldl_cons, hw1]
        exact hw2
    · obtain ⟨w, hw, hle⟩ :=
        ih d hdt (fun e he => hvalid e (List.mem_append_right _ he)) (stepShard acc os)
      exact ⟨w, by rw [List.foldl_cons]; exact hw, hle⟩

lemma foldl_step_attained (shards : List (Option (List Rumor))) :
    ∀ (acc : Option Nat) (w : Nat), shards.foldl stepShard acc = some w →
      acc = some w ∨ ∃ d ∈ allDates shards, fromisoformat d = some w := by
  induction shards with
  | nil => intro acc w h; exact Or.inl h
  | cons os shards ih =>
    intro acc w h
    rw [List.foldl_cons] at h
    rcases ih _ w h with hacc | ⟨d, hd, hfd⟩
    · -- the value came out of the first step
      match os with
      | none => exact Or.inl hacc
      | some [] => exact Or.inl hacc
      | some (r :: rs) =>
        rcases hfm : fromisoformat (maxByDate r rs).archive_date with _ | v
        · simp only [stepShard, hfm] at hacc
          exact Or.inl hacc
        · have hmem : (maxByDate r rs).archive_date ∈ allDates (some (r :: rs) :: shards) := by
            rw [allDates_cons]
            exact List.mem_append_left _
              (List.mem_map.mpr ⟨maxByDate r rs, maxByDate_mem rs r, rfl⟩)
          cases acc with
          | none =>
            simp only [stepShard, hfm] at hacc
            refine Or.inr ⟨_, hmem, ?_⟩
            rw [hfm, hacc]
          | some w0 =>
            simp only [stepShard, hfm] at hacc
            by_cases hc : w0 < v
            · rw [if_pos hc] at hacc
              refine Or.inr ⟨_, hmem, ?_⟩
              rw [hfm, hacc]
            · rw [if_neg hc] at hacc
              exact Or.inl hacc
    · refine Or.inr ⟨d, ?_, hfd⟩
      rw [allDates_cons]
      exact List.mem_append_right _ hd

lemma foldl_step_empty (shards : List (Option (List Rumor))) :
    ∀ acc : Option Nat, allDates shards = [] → shards.foldl stepShard acc = acc := by
  induction shards with
  | nil => intro acc _; rfl
  | cons os shards ih =>
    intro acc h
    rw [allDates_cons] at h
    rcases List.append_eq_nil.mp h with ⟨h1, h2⟩
    have hstep : stepShard acc os = acc := by
      match os with
      | none => rfl
      | some [] => rfl
      | some (r :: rs) => simp [shardDates] at h1
    rw [List.foldl_cons, hstep]
    exact ih acc h2

lemma keyLe_iff (a b : String × Nat × Nat) :
    keyLe a b = true ↔
      a.1 < b.1 ∨ (a.1 = b.1 ∧ (a.2.1 < b.2.1 ∨ (a.2.1 = b.2.1 ∧ a.2.2 ≤ b.2.2))) := by
  unfold keyLe
  split_ifs with h1 h2 h3 h4
  · simp [(strlt_iff _ _).mp h1]
  · have hba : b.1 < a.1 := (strlt_iff _ _).mp h2
    simp only [Bool.false_eq_true, false_iff]
    push_neg
    constructor
    · exact lt_asymm hba
    · intro heq
      exact absurd (heq ▸ hba) (lt_irrefl _)
  · have heq : a.1 = b.1 := by
      have hab : ¬ a.1 < b.1 := fun hl => h1 ((strlt_iff _ _).mpr hl)
      have hba : ¬ b.1 < a.1 := fun hl => h2 ((strlt_iff _ _).mpr hl)
      exact le_antisymm (not_lt.mp hba) (not_lt.mp hab)
    simp [heq, h3, lt_irrefl]
  · have heq : a.1 = b.1 := by
      have hab : ¬ a.1 < b.1 := fun hl => h1 ((strlt_iff _ _).mpr hl)
      have hba : ¬ b.1 < a.1 := fun hl => h2 ((strlt_iff _ _).mpr hl)
      exact le_antisymm (not_lt.mp hba) (not_lt.mp hab)
    simp only [Bool.false_eq_true, false_iff]
    push_neg
    refine ⟨fun hl => absurd (heq ▸ hl) (lt_irrefl _), fun _ => ?_⟩
    omega
  · have heq : a.1 = b.1 := by
      have hab : ¬ a.1 < b.1 := fun hl => h1 ((strlt_iff _ _).mpr hl)
      have hba : ¬ b.1 < a.1 := fun hl => h2 ((strlt_iff _ _).mpr hl)
      exact le_antisymm (not_lt.mp hba) (not_lt.mp hab)
    simp [heq, lt_irrefl]
    omega

lemma keyLe_total (a b : String × Nat × Nat) : keyLe a b = true ∨ keyLe b a = true := by
  rw [keyLe_iff, keyLe_iff]
  rcases lt_trichotomy a.1 b.1 with h | h | h
  · exact Or.inl (Or.inl h)
  · rcases lt_trichotomy a.2.1 b.2.1 with h2 | h2 | h2
    · exact Or.inl (Or.inr ⟨h, Or.inl h2⟩)
    · rcases le_total a.2.2 b.2.2 with h3 | h3
      · exact Or.inl (Or.inr ⟨h, Or.inr ⟨h2, h3⟩⟩)
      · exact Or.inr (Or.inr ⟨h.symm, Or.inr ⟨h2.symm, h3⟩⟩)
    · exact Or.inr (Or.inr ⟨h.symm, Or.inl h2⟩)
  · exact Or.inr (Or.inl h)

lemma keyLe_trans (a b c : String × Nat × Nat)
    (hab : keyLe a b = true) (hbc : keyLe b c = true) : keyLe a c = true := by
  rw [keyLe_iff] at hab hbc ⊢
  rcases hab with h1 | ⟨e1, h1⟩ <;> rcases hbc with h2 | ⟨e2, h2⟩
  · exact Or.inl (lt_trans h1 h2)
  · exact Or.inl (lt_of_lt_of_eq h1 e2)
  · exact Or.inl (lt_of_eq_of_lt e1 h2)
  · refine Or.inr ⟨e1.trans e2, ?_⟩
    omega

instance recOrder.total : IsTotal (Rumor × Nat × Nat) recOrder :=
  ⟨fun a b => keyLe_total (keyOf b) (keyOf a)⟩

instance recOrder.trans : IsTrans (Rumor × Nat × Nat) recOrder :=
  ⟨fun a b c hab hbc => keyLe_trans (keyOf c) (keyOf b) (keyOf a) hbc hab⟩

lemma recOrder_dates {a b : Rumor × Nat × Nat} (h : recOrder a b) :
    b.1.archive_date ≤ a.1.archive_date := by
  unfold recOrder at h
  rw [keyLe_iff] at h
  rcases h with h | ⟨e, _⟩
  · exact le_of_lt h
  · exact le_of_eq e

lemma addKeys_length (shards : List (Option (List Rumor))) :
    (addKeys shards).length = totalCount shards := by
  unfold addKeys totalCount
  rw [List.length_flatten, List.map_map]
  have hmap : List.map
      (List.length ∘ fun pi : Nat × Option (List Rumor) =>
        match pi.2 with
        | none => ([] : List (Rumor × Nat × Nat))
        | some rs => rs.enum.map (fun ir => (ir.2, pi.1 + 1, ir.1)))
      shards.enum =
      List.map ((fun os : Option (List Rumor) => (os.getD []).length) ∘ Prod.snd)
        shards.enum := by
    apply List.map_congr_left
    intro pi _
    match hos : pi.2 with
    | none => simp [Function.comp, hos]
    | some rs => simp [Function.comp, hos]
  rw [hmap, ← List.map_map, List.enum_map_snd]

lemma addKeys_mem {shards : List (Option (List Rumor))} {x : Rumor × Nat × Nat}
    (h : x ∈ addKeys shards) : ∃ rs, some rs ∈ shards ∧ x.1 ∈ rs := by
  unfold addKeys at h
  rcases List.mem_flatten.mp h with ⟨block, hblock, hx⟩
  rcases List.mem_map.mp hblock with ⟨pi, hpi, rfl⟩
  match hos : pi.2 with
  | none => rw [hos] at hx; simp at hx
  | some rs =>
    rw [hos] at hx
    rcases List.mem_map.mp hx with ⟨ir, hir, rfl⟩
    exact ⟨rs, hos ▸ List.snd_mem_of_mem_enum hpi, List.snd_mem_of_mem_enum hir⟩

lemma mem_addKeys {shards : List (Option (List Rumor))} {rs : List Rumor} {r : Rumor}
    (hrs : some rs ∈ shards) (hr : r ∈ rs) : ∃ p i, (r, p, i) ∈ addKeys shards := by
  obtain ⟨n, hn⟩ := List.getElem?_of_mem hrs
  obtain ⟨j, hj⟩ := List.getElem?_of_mem hr
  refine ⟨n + 1, j, ?_⟩
  unfold addKeys
  rw [List.mem_flatten]
  refine ⟨rs.enum.map (fun ir => (ir.2, n + 1, ir.1)), ?_, ?_⟩
  · exact List.mem_map.mpr ⟨(n, some rs), List.mem_enum_iff_getElem?.mpr hn, rfl⟩
  · exact List.mem_map.mpr ⟨(j, r), List.mem_enum_iff_getElem?.mpr hj, rfl⟩

lemma runScraped_spec (st : FileState) (days : List (List Rumor)) (n : String)
    (acc : List Rumor) (old : List Rumor) (sh2 : List (Option (List Rumor)))
    (hacc : acc = collectNew days (load_existing_rumors st.shards))
    (hold : old = (st.shards.getD 6 none).getD [])
    (hsh : sh2 = if acc = [] then st.shards else st.shards.set 6 (some (old ++ acc.reverse))) :
    (runScraped st days n).2 = acc ∧
    (runScraped st days n).1.shards = sh2 ∧
    (runScraped st days n).1.indexFile =
      (if acc = [] then st.indexFile else
        match st.indexFile with
        | none => none
        | some _ => some ⟨n, totalCount sh2⟩) ∧
    (runScraped st days n).1.latest =
      (if acc = [] then
        (if addKeys st.shards = [] then st.latest else some (latest100 st.shards))
       else some (latest100 sh2)) := by
  subst hacc hold hsh
  by_cases h : collectNew days (load_existing_rumors st.shards) = []
  · simp only [runScraped, h, if_pos, rebuildLatest]
    refine ⟨?_, ?_, ?_, ?_⟩ <;> first
      | trivial
      | (split <;> simp [h])
  · simp only [runScraped, if_neg h, rebuildLatest]
    refine ⟨?_, ?_, ?_, ?_⟩
    · trivial
    · cases hidx : st.indexFile <;> simp [hidx, h]
    · cases hidx : st.indexFile <;> simp [hidx, h]
    · cases hidx : st.indexFile <;> simp [hidx, h]

/-- Record fixture with a given archive date and text, the other fields
empty (as produced for a page with no date span, quote, links or tags). -/
def mkR (d t : String) : Rumor := ⟨"", d, t, "", "", "", []⟩

/-- Fixture: a first rumor record. -/
def exR1 : Rumor := mkR "2024-03-01" "Team X signs Player Y"

/-- Fixture: a second rumor record. -/
def exR2 : Rumor := mkR "2024-03-01" "Team Z trades for Player W"

/-- Fixture: a third rumor record. -/
def exR3 : Rumor := mkR "2024-03-01" "Team Q waives Player V"

/-- Fixture: a file state with all seven shard files missing. -/
def stEmpty : FileState :=
  ⟨[none, none, none, none, none, none, none], none, none⟩

/-- Text non-emptiness invariant over a set of shard files. -/
def textInvariant (shards : List (Option (List Rumor))) : Prop :=
  ∀ rs : List Rumor, some rs ∈ shards → ∀ r ∈ rs, r.text ≠ ""

lemma text_ne_of_fingerprint {r : Rumor} (h : fingerprint r ≠ "") : r.text ≠ "" := by
  intro heq
  exact h (by simp [fingerprint, heq])

lemma mem_of_getD_some {α : Type} {l : List (Option α)} {n : Nat} {x : α}
    (h : l.getD n none = some x) : some x ∈ l := by
  rw [List.getD_eq_getElem?_getD] at h
  cases he : l[n]? with
  | none => rw [he] at h; simp at h
  | some o =>
    rw [he] at h
    simp only [Option.getD_some] at h
    exact h ▸ List.getElem?_mem he

lemma append_reverse_getElem (old acc : List Rumor) (i : Nat) (h : i < acc.length) :
    (old ++ acc.reverse)[old.length + (acc.length - 1 - i)]? = acc[i]? := by
  rw [List.getElem?_append]
  rw [if_neg (by omega)]
  have hidx : old.length + (acc.length - 1 - i) - old.length = acc.length - 1 - i := by
    omega
  rw [hidx, List.getElem?_reverse (by omega)]
  congr 1
  omega

end HH

open HH

/-- C1: for every set of shards and every run, the run's accepted
sequence is the duplicate-filtered accumulation over the scraped
buckets; every fingerprint of a record stored in a shard is in the
built index; no accepted record has a fingerprint that is stored or
empty; no two accepted records of one run share a fingerprint; and for
a fresh non-empty fingerprint the accepted record is exactly the first
candidate of the run carrying it. -/
theorem c1_duplicate_filter (shards : List (Option (List Rumor)))
    (days : List (List Rumor)) (st : FileState) (buckets : List FetchOutcome)
    (nowIso : String) :
    (run st buckets nowIso).2 =
        collectNew (buckets.map scrape_rumors_for_date) (load_existing_rumors st.shards)
    ∧ (∀ (rs : List Rumor) (r : Rumor), some rs ∈ shards → r ∈ rs →
         fingerprint r ∈ load_existing_rumors shards)
    ∧ (∀ r ∈ collectNew days (load_existing_rumors shards),
         fingerprint r ∉ load_existing_rumors shards ∧ fingerprint r ≠ "")
    ∧ ((collectNew days (load_existing_rumors shards)).map fingerprint).Nodup
    ∧ (∀ f : String, f ≠ "" → f ∉ load_existing_rumors shards →
         (collectNew days (load_existing_rumors shards)).find? (fun r => fingerprint r == f) =
           days.flatten.find? (fun r => fingerprint r == f)) := by
  refine ⟨?_, ?_, ?_, ?_, ?_⟩
  · exact (runScraped_spec st _ nowIso _ _ _ rfl rfl rfl).1
  · exact fun rs r hrs hr => mem_load_existing hrs hr
  · rw [collectNew_eq]
    exact fun r hr => filterNew_accepted _ _ r hr
  · rw [collectNew_eq]
    exact filterNew_nodup _ _
  · intro f hf hfs
    rw [collectNew_eq]
    exact filterNew_findq _ _ f hf hfs

/-- Witness for C1: over a shard already holding `exR1`, a run whose
buckets carry `[exR1, exR2]` and then `[exR2]` again accepts exactly
the first occurrence of `exR2`, found at the same position as in the
concatenated candidate stream. -/
theorem c1_duplicate_filter_witness :
    (collectNew [[exR1, exR2], [exR2]] (load_existing_rumors [some [exR1]])).find?
        (fun r => fingerprint r == "Team Z trades for Player W") =
      ([[exR1, exR2], [exR2]] : List (List Rumor)).flatten.find?
        (fun r => fingerprint r == "Team Z trades for Player W") :=
  (c1_duplicate_filter [some [exR1]] [[exR1, exR2], [exR2]] stEmpty [] "").2.2.2.2
    "Team Z trades for Player W" (by decide) (by decide)

/-- C6 counterexample: the shard write is not atomic.  Appending
`[exR2]` to an active shard holding `[exR1]` with a write that fails
right after truncation leaves an empty shard on disk, which is neither
the whole updated content nor the previous content. -/
theorem c6_atomic_counterexample :
    ¬ (appendToActiveShard [exR1] [exR2] (.failAfter 0) = [exR1] ++ [exR2].reverse ∨
       appendToActiveShard [exR1] [exR2] (.failAfter 0) = [exR1]) := by
  decide

/-- C6 amended: `appendToActiveShard` writes the concatenation of the
previous content and the reversed new records with a plain truncating
write: on success the whole updated shard is on disk, and on a failure
some prefix (possibly empty) of the updated content is on disk — the
previous content is not preserved. -/
theorem c6_append_write (old newRecs : List Rumor) (o : WriteOutcome) :
    (o = .ok → appendToActiveShard old newRecs o = old ++ newRecs.reverse) ∧
    (∃ k, appendToActiveShard old newRecs o = (old ++ newRecs.reverse).take k) := by
  constructor
  · rintro rfl
    rfl
  · cases o with
    | ok =>
      exact ⟨(old ++ newRecs.reverse).length, by
        simp [appendToActiveShard, writeJsonList]⟩
    | failAfter k => exact ⟨k, rfl⟩

/-- Witness for C6 amended, at a one-record shard and a one-record
append. -/
theorem c6_append_write_witness :
    appendToActiveShard [exR1] [exR2] .ok = [exR1] ++ [exR2].reverse ∧
    ∃ k, appendToActiveShard [exR1] [exR2] (.failAfter 0) =
      ([exR1] ++ [exR2].reverse).take k :=
  ⟨(c6_append_write [exR1] [exR2] .ok).1 rfl,
   (c6_append_write [exR1] [exR2] (.failAfter 0)).2⟩

/-- C7: the Latest Projection rebuild is idempotent — it is a total
deterministic function of the shard contents, so running it twice with
no intervening shard change leaves exactly the same files as running
it once. -/
theorem c7_rebuild_idempotent (st : FileState) :
    rebuildLatest (rebuildLatest st) = rebuildLatest st := by
  by_cases h : addKeys st.shards = []
  · simp [rebuildLatest, h]
  · simp [rebuildLatest, h]

/-- C2: when a run accepts a non-empty sequence, the whole run's
accepted records are appended to the active shard reversed, so the
record accepted earlier (newer, position `i` in fetch order) lands at
the higher on-disk position `old.length + (len - 1 - i)`; and in the
concrete scenario, appending accepted `[exR1, exR2, exR3]` (newest
first) to an empty active shard yields on-disk `[exR3, exR2, exR1]`
with the projection ranking `exR1` first. -/
theorem c2_reversed_append (st : FileState) (buckets : List FetchOutcome) (nowIso : String) :
    ((run st buckets nowIso).2 ≠ [] →
      (run st buckets nowIso).1.shards =
        st.shards.set 6
          (some (((st.shards.getD 6 none).getD []) ++ (run st buckets nowIso).2.reverse)) ∧
      (∀ i, i < (run st buckets nowIso).2.length →
        (((st.shards.getD 6 none).getD []) ++
            (run st buckets nowIso).2.reverse)[((st.shards.getD 6 none).getD []).length +
              ((run st buckets nowIso).2.length - 1 - i)]? =
          (run st buckets nowIso).2[i]?))
    ∧ (run stEmpty [.response 200 [exR1, exR2, exR3]] "now").1.shards.getD 6 none =
        some [exR3, exR2, exR1]
    ∧ ((run stEmpty [.response 200 [exR1, exR2, exR3]] "now").1.latest.getD []).head? =
        some exR1 := by
  refine ⟨?_, by decide, by decide⟩
  intro hne
  obtain ⟨hsnd, hshards, _, _⟩ :=
    runScraped_spec st (buckets.map scrape_rumors_for_date) nowIso _ _ _ rfl rfl rfl
  have hsnd2 : (run st buckets nowIso).2 =
      collectNew (buckets.map scrape_rumors_for_date) (load_existing_rumors st.shards) :=
    hsnd
  have hshards2 : (run st buckets nowIso).1.shards =
      (if collectNew (buckets.map scrape_rumors_for_date)
            (load_existing_rumors st.shards) = [] then st.shards
       else st.shards.set 6
         (some (((st.shards.getD 6 none).getD []) ++
           (collectNew (buckets.map scrape_rumors_for_date)
             (load_existing_rumors st.shards)).reverse))) :=
    hshards
  have hne2 : collectNew (buckets.map scrape_rumors_for_date)
      (load_existing_rumors st.shards) ≠ [] := by
    rw [← hsnd2]
    exact hne
  constructor
  · rw [hshards2, if_neg hne2, hsnd2]
  · intro i hi
    rw [hsnd2] at hi ⊢
    exact append_reverse_getElem _ _ i hi

/-- Witness for C2 at the concrete scenario: the active shard is
updated to the reversed accepted sequence and the newest accepted
record sits at the last position. -/
theorem c2_reversed_append_witness :
    (run stEmpty [.response 200 [exR1, exR2, exR3]] "now").1.shards =
      stEmpty.shards.set 6
        (some (((stEmpty.shards.getD 6 none).getD []) ++
          (run stEmpty [.response 200 [exR1, exR2, exR3]] "now").2.reverse)) ∧
    (((stEmpty.shards.getD 6 none).getD []) ++
        (run stEmpty [.response 200 [exR1, exR2, exR3]] "now").2.reverse)[
          ((stEmpty.shards.getD 6 none).getD []).length +
            ((run stEmpty [.response 200 [exR1, exR2, exR3]] "now").2.length - 1 - 0)]? =
      (run stEmpty [.response 200 [exR1, exR2, exR3]] "now").2[0]? := by
  have h := (c2_reversed_append stEmpty [.response 200 [exR1, exR2, exR3]] "now").1 (by decide)
  exact ⟨h.1, h.2 0 (by decide)⟩

/-- C3: over shards whose records all carry valid fixed-width
`YYYY-MM-DD` archive dates, the watermark resolver returns (the parsed
value of) the lexicographic maximum archive date over all records of
all shards; when no shard contains any record it falls back to
yesterday relative to the run's clock; and on the concrete shards with
dates 2024-01-05, 2024-01-09 and 2024-01-07 it returns 2024-01-09. -/
theorem c3_watermark_resolver (shards : List (Option (List Rumor))) (y : Nat) :
    ((∀ d ∈ allDates shards, (fromisoformat d).isSome) →
      (∀ m, m ∈ allDates shards → (∀ d ∈ allDates shards, d ≤ m) →
         fromisoformat m = some (load_latest_date shards y))
      ∧ (allDates shards = [] → load_latest_date shards y = y))
    ∧ load_latest_date
        [some [mkR "2024-01-05" "a", mkR "2024-01-09" "b"],
         some [mkR "2024-01-07" "c"]] 0 = 20240109 := by
  constructor
  · intro hvalid
    constructor
    · intro m hm hub
      obtain ⟨w, hw, hle⟩ := foldl_step_reaches shards m hm hvalid none
      have hload : load_latest_date shards y = w := by
        unfold load_latest_date
        rw [hw]
        rfl
      rcases foldl_step_attained shards none w hw with hnone | ⟨d0, hd0, hfd0⟩
      · exact absurd hnone (by simp)
      · have hd0valid : (fromisoformat d0).isSome := hvalid d0 hd0
        have hvle : valOf d0 ≤ valOf m := valOf_le hd0valid (hvalid m hm) (hub d0 hd0)
        have hd0w : valOf d0 = w := by
          unfold valOf
          rw [hfd0]
          rfl
        have hmw : valOf m = w := le_antisymm hle (hd0w ▸ hvle)
        rw [hload, ← hmw]
        exact fromisoformat_of_isSome (hvalid m hm)
    · intro hempty
      unfold load_latest_date
      rw [foldl_step_empty shards none hempty]
      rfl
  · decide

/-- Witness for C3 at the concrete shards of the spec's example: the
lexicographically maximal date 2024-01-09 parses to the value the
resolver returns. -/
theorem c3_watermark_resolver_witness :
    fromisoformat "2024-01-09" =
      some (load_latest_date
        [some [mkR "2024-01-05" "a", mkR "2024-01-09" "b"],
         some [mkR "2024-01-07" "c"]] 0) := by
  have h59 : ("2024-01-05" : String) ≤ "2024-01-09" :=
    le_of_lt ((strlt_iff _ _).mp (by decide))
  have h79 : ("2024-01-07" : String) ≤ "2024-01-09" :=
    le_of_lt ((strlt_iff _ _).mp (by decide))
  refine ((c3_watermark_resolver
    [some [mkR "2024-01-05" "a", mkR "2024-01-09" "b"],
     some [mkR "2024-01-07" "c"]] 0).1 (by decide)).1 "2024-01-09" (by decide) ?_
  intro d hd
  simp only [allDates, shardDates, mkR, List.map_cons, List.map_nil, Option.getD_some,
    List.flatten, List.mem_append, List.mem_cons, List.not_mem_nil, or_false,
    List.append_nil] at hd
  rcases hd with (rfl | rfl) | rfl
  · exact h59
  · exact le_refl _
  · exact h79

/-- C5: the Latest Projection rebuild sorts the keyed union of all
stored records by `(archive_date, part, idx)` all descending (the
sorted list is a permutation of the union ordered by `recOrder`), takes
the first 100, and the resulting projection has exactly
`min 100 totalCount` entries, with non-increasing archive dates
(newest first), every entry being a stored record with the bookkeeping
key stripped; when at least one record exists the rebuild persists
exactly this list. -/
theorem c5_projection (shards : List (Option (List Rumor))) (st : FileState) :
    (latest100 shards).length = min 100 (totalCount shards)
    ∧ (List.insertionSort recOrder (addKeys shards)).Perm (addKeys shards)
    ∧ List.Sorted recOrder (List.insertionSort recOrder (addKeys shards))
    ∧ (latest100 shards).Pairwise (fun a b => b.archive_date ≤ a.archive_date)
    ∧ (∀ r ∈ latest100 shards, ∃ rs, some rs ∈ shards ∧ r ∈ rs)
    ∧ (addKeys st.shards ≠ [] →
        rebuildLatest st = { st with latest := some (latest100 st.shards) }) := by
  have hsorted : List.Sorted recOrder (List.insertionSort recOrder (addKeys shards)) :=
    List.sorted_insertionSort recOrder (addKeys shards)
  have hperm : (List.insertionSort recOrder (addKeys shards)).Perm (addKeys shards) :=
    List.perm_insertionSort recOrder (addKeys shards)
  refine ⟨?_, hperm, hsorted, ?_, ?_, ?_⟩
  · unfold latest100 latestKeyed
    rw [List.length_map, List.length_take, hperm.length_eq, addKeys_length]
  · unfold latest100 latestKeyed
    rw [List.pairwise_map]
    exact (List.Pairwise.sublist (List.take_sublist 100 _) hsorted).imp
      (fun h => recOrder_dates h)
  · intro r hr
    unfold latest100 latestKeyed at hr
    rcases List.mem_map.mp hr with ⟨x, hx, rfl⟩
    have hx2 : x ∈ addKeys shards :=
      hperm.mem_iff.mp ((List.take_sublist 100 _).mem hx)
    exact addKeys_mem hx2
  · intro h
    simp [rebuildLatest, h]

/-- Witness for C5: at a one-shard, one-record corpus the rebuild
persists the projection and its length is `min 100 1 = 1`. -/
theorem c5_projection_witness :
    rebuildLatest ⟨[some [exR1]], none, none⟩ =
      { shards := [some [exR1]], latest := some (latest100 [some [exR1]]),
        indexFile := none } ∧
    (latest100 [some [exR1]]).length = min 100 (totalCount [some [exR1]]) :=
  ⟨(c5_projection [some [exR1]] ⟨[some [exR1]], none, none⟩).2.2.2.2.2 (by decide),
   (c5_projection [some [exR1]] ⟨[some [exR1]], none, none⟩).1⟩

/-- C8: a fetch failure or a non-success HTTP status for one date
bucket yields zero candidates for that date and does not abort the
run — the run over buckets with such a failed date is identical to the
run where that date yields an empty successful page, and the remaining
dates are still processed. -/
theorem c8_bucket_failures (st : FileState) (pre post : List FetchOutcome)
    (nowIso : String) (s : Nat) (c : List Rumor) :
    scrape_rumors_for_date .failure = []
    ∧ (s ≠ 200 → scrape_rumors_for_date (.response s c) = [])
    ∧ run st (pre ++ .failure :: post) nowIso =
        run st (pre ++ .response 200 [] :: post) nowIso
    ∧ (s ≠ 200 →
        run st (pre ++ .response s c :: post) nowIso =
          run st (pre ++ .response 200 [] :: post) nowIso) := by
  refine ⟨rfl, ?_, ?_, ?_⟩
  · intro hs
    simp [scrape_rumors_for_date, hs]
  · unfold run
    rw [List.map_append, List.map_append, List.map_cons, List.map_cons]
    have hf : scrape_rumors_for_date .failure =
        scrape_rumors_for_date (.response 200 []) := by
      simp [scrape_rumors_for_date]
    rw [hf]
  · intro hs
    unfold run
    rw [List.map_append, List.map_append, List.map_cons, List.map_cons]
    have hsc : scrape_rumors_for_date (.response s c) =
        scrape_rumors_for_date (.response 200 []) := by
      simp [scrape_rumors_for_date, hs]
    rw [hsc]

/-- Witness for C8: a 404 bucket yields no candidates and the run over
it equals the run over an empty successful bucket. -/
theorem c8_bucket_failures_witness :
    scrape_rumors_for_date (.response 404 [exR1]) = [] ∧
    run stEmpty ([] ++ .response 404 [exR1] :: []) "now" =
      run stEmpty ([] ++ .response 200 [] :: []) "now" := by
  have h := c8_bucket_failures stEmpty [] [] "now" 404 [exR1]
  exact ⟨h.2.1 (by decide), h.2.2.2 (by decide)⟩

/-- C9: no record with empty text is ever constructed by the scraper
(empty-text candidates are dropped, not errors), and a run preserves
the invariant that every stored record has non-empty text. -/
theorem c9_nonempty_text (o : FetchOutcome) (st : FileState)
    (buckets : List FetchOutcome) (nowIso : String) :
    (∀ r ∈ scrape_rumors_for_date o, r.text ≠ "")
    ∧ (textInvariant st.shards → textInvariant ((run st buckets nowIso).1.shards)) := by
  constructor
  · cases o with
    | failure => simp [scrape_rumors_for_date]
    | response s c =>
      intro r hr
      simp only [scrape_rumors_for_date] at hr
      split at hr
      · simp at hr
      · rw [List.mem_filter] at hr
        exact of_decide_eq_true hr.2
  · intro hinv
    obtain ⟨hsnd, hshards, _, _⟩ :=
      runScraped_spec st (buckets.map scrape_rumors_for_date) nowIso _ _ _ rfl rfl rfl
    have hshards2 : (run st buckets nowIso).1.shards =
        (if collectNew (buckets.map scrape_rumors_for_date)
              (load_existing_rumors st.shards) = [] then st.shards
         else st.shards.set 6
           (some (((st.shards.getD 6 none).getD []) ++
             (collectNew (buckets.map scrape_rumors_for_date)
               (load_existing_rumors st.shards)).reverse))) :=
      hshards
    intro rs hrs r hr
    rw [hshards2] at hrs
    by_cases hacc : collectNew (buckets.map scrape_rumors_for_date)
        (load_existing_rumors st.shards) = []
    · rw [if_pos hacc] at hrs
      exact hinv rs hrs r hr
    · rw [if_neg hacc] at hrs
      rcases List.mem_or_eq_of_mem_set hrs with hmem | heq
      · exact hinv rs hmem r hr
      · cases Option.some.inj heq.symm with
        | refl =>
          rcases List.mem_append.mp hr with hold | hnew
          · cases hgd : st.shards.getD 6 none with
            | none => rw [hgd] at hold; simp at hold
            | some rs0 =>
              rw [hgd] at hold
              exact hinv rs0 (mem_of_getD_some hgd) r hold
          · rw [List.mem_reverse, collectNew_eq] at hnew
            exact text_ne_of_fingerprint (filterNew_accepted _ _ r hnew).2

/-- Witness for C9: the scraper drops an empty-text candidate, and a
run over a shard set satisfying the invariant keeps part 7 free of
empty-text records. -/
theorem c9_nonempty_text_witness :
    (mkR "2024-03-01" "" ∉ scrape_rumors_for_date (.response 200 [mkR "2024-03-01" ""]))
    ∧ ∀ r ∈ ([exR2, exR1] : List Rumor), r.text ≠ "" := by
  constructor
  · intro hmem
    exact (c9_nonempty_text (.response 200 [mkR "2024-03-01" ""]) stEmpty [] "now").1
      (mkR "2024-03-01" "") hmem rfl
  · intro r hr
    have hrun := (c9_nonempty_text .failure stEmpty [.response 200 [exR1, exR2]] "now").2
      (by intro rs hrs; simp [stEmpty] at hrs)
    refine hrun [exR2, exR1] ?_ r hr
    decide

/-- Fixture: a file state with one stored record and a readable index
file whose `last_updated` stamp is stale. -/
def stStale : FileState :=
  ⟨[some [exR1], none, none, none, none, none, none], none,
   some ⟨"2020-01-01T00:00:00", 1⟩⟩

/-- C4 counterexample: a re-run with unchanged remote data (the only
candidate is already stored) accepts zero records and does rewrite the
projection file, but it does not refresh the metadata file: the index
keeps its stale `last_updated` stamp instead of the run's timestamp,
contradicting the claim that every run refreshes the summary
metadata. -/
theorem c4_metadata_counterexample :
    (run stStale [.response 200 [exR1]] "2025-01-01T00:00:00").2 = [] ∧
    (run stStale [.response 200 [exR1]] "2025-01-01T00:00:00").1.shards = stStale.shards ∧
    (run stStale [.response 200 [exR1]] "2025-01-01T00:00:00").1.latest = some [exR1] ∧
    (run stStale [.response 200 [exR1]] "2025-01-01T00:00:00").1.indexFile =
      some ⟨"2020-01-01T00:00:00", 1⟩ ∧
    (run stStale [.response 200 [exR1]] "2025-01-01T00:00:00").1.indexFile ≠
      some ⟨"2025-01-01T00:00:00",
        totalCount (run stStale [.response 200 [exR1]] "2025-01-01T00:00:00").1.shards⟩ := by
  decide

/-- C4 amended: every run rewrites the projection file whenever the
resulting corpus is non-empty (in particular a no-op re-run over a
non-empty corpus rewrites it with identical content and leaves the
shard file unchanged), but the metadata file is refreshed only on runs
that accept at least one new record (and only when the index file is
readable); a run that accepts nothing leaves the metadata file
untouched. -/
theorem c4_projection_always_metadata_on_new (st : FileState)
    (buckets : List FetchOutcome) (nowIso : String) :
    (addKeys ((run st buckets nowIso).1.shards) ≠ [] →
      (run st buckets nowIso).1.latest =
        some (latest100 ((run st buckets nowIso).1.shards)))
    ∧ ((run st buckets nowIso).2 = [] →
      (run st buckets nowIso).1.shards = st.shards ∧
      (run st buckets nowIso).1.indexFile = st.indexFile)
    ∧ ((run st buckets nowIso).2 ≠ [] → st.indexFile.isSome →
      (run st buckets nowIso).1.indexFile =
        some ⟨nowIso, totalCount ((run st buckets nowIso).1.shards)⟩) := by
  obtain ⟨hsnd, hshards, hindex, hlatest⟩ :=
    runScraped_spec st (buckets.map scrape_rumors_for_date) nowIso _ _ _ rfl rfl rfl
  have hsnd2 : (run st buckets nowIso).2 =
      collectNew (buckets.map scrape_rumors_for_date) (load_existing_rumors st.shards) :=
    hsnd
  have hshards2 : (run st buckets nowIso).1.shards = _ := hshards
  have hindex2 : (run st buckets nowIso).1.indexFile = _ := hindex
  have hlatest2 : (run st buckets nowIso).1.latest = _ := hlatest
  by_cases hacc : collectNew (buckets.map scrape_rumors_for_date)
      (load_existing_rumors st.shards) = []
  · simp only [if_pos hacc] at hshards2 hindex2 hlatest2
    refine ⟨?_, fun _ => ⟨hshards2, hindex2⟩, ?_⟩
    · intro hne
      rw [hshards2] at hne
      rw [hlatest2, if_neg hne, hshards2]
    · intro hne
      rw [hsnd2, hacc] at hne
      exact absurd rfl hne
  · simp only [if_neg hacc] at hshards2 hindex2 hlatest2
    refine ⟨?_, ?_, ?_⟩
    · intro _
      rw [hlatest2, hshards2]
    · intro hz
      rw [hsnd2] at hz
      exact absurd hz hacc
    · intro _ hsome
      cases hidx : st.indexFile with
      | none => rw [hidx] at hsome; simp at hsome
      | some m0 =>
        rw [hidx] at hindex2
        rw [hindex2, hshards2]

/-- Witness for C4 amended: a run that accepts one new record over the
stale-index state refreshes the metadata with the run's timestamp and
the new total, and persists the projection. -/
theorem c4_projection_always_metadata_on_new_witness :
    (run stStale [.response 200 [exR2]] "2025-01-01T00:00:00").1.indexFile =
      some ⟨"2025-01-01T00:00:00",
        totalCount (run stStale [.response 200 [exR2]] "2025-01-01T00:00:00").1.shards⟩ ∧
    (run stStale [.response 200 [exR2]] "2025-01-01T00:00:00").1.latest =
      some (latest100 ((run stStale [.response 200 [exR2]] "2025-01-01T00:00:00").1.shards)) := by
  have h := c4_projection_always_metadata_on_new stStale [.response 200 [exR2]]
    "2025-01-01T00:00:00"
  exact ⟨h.2.2 (by decide) (by decide), h.1 (by decide)⟩

/-- C10: when the corpus holds zero records (every shard missing or
empty) the projection rebuild writes no projection file at all — the
whole file state, in particular any previously existing projection
file, is left unchanged — and likewise a run whose final corpus is
empty leaves the projection file untouched. -/
theorem c10_empty_corpus_no_write (st : FileState) (buckets : List FetchOutcome)
    (nowIso : String) :
    (addKeys st.shards = [] → rebuildLatest st = st)
    ∧ (st.shards.length = 7 → addKeys ((run st buckets nowIso).1.shards) = [] →
        (run st buckets nowIso).1.latest = st.latest) := by
  constructor
  · intro h
    simp [rebuildLatest, h]
  · intro h7 hak
    obtain ⟨hsnd, hshards, hindex, hlatest⟩ :=
      runScraped_spec st (buckets.map scrape_rumors_for_date) nowIso _ _ _ rfl rfl rfl
    have hshards2 : (run st buckets nowIso).1.shards = _ := hshards
    have hlatest2 : (run st buckets nowIso).1.latest = _ := hlatest
    by_cases hacc : collectNew (buckets.map scrape_rumors_for_date)
        (load_existing_rumors st.shards) = []
    · simp only [if_pos hacc] at hshards2 hlatest2
      rw [hshards2] at hak
      rw [hlatest2, if_pos hak]
    · exfalso
      simp only [if_neg hacc] at hshards2
      rw [hshards2] at hak
      have hne : ((st.shards.getD 6 none).getD []) ++
          (collectNew (buckets.map scrape_rumors_for_date)
            (load_existing_rumors st.shards)).reverse ≠ [] := by
        intro heq
        rcases List.append_eq_nil.mp heq with ⟨_, hrev⟩
        exact hacc (List.reverse_eq_nil_iff.mp hrev)
      rcases List.exists_mem_of_ne_nil _ hne with ⟨r, hrmem⟩
      have hset : some (((st.shards.getD 6 none).getD []) ++
          (collectNew (buckets.map scrape_rumors_for_date)
            (load_existing_rumors st.shards)).reverse) ∈
          st.shards.set 6 (some (((st.shards.getD 6 none).getD []) ++
            (collectNew (buckets.map scrape_rumors_for_date)
              (load_existing_rumors st.shards)).reverse)) :=
        List.mem_set st.shards 6 (by omega) _
      obtain ⟨p, i, hpk⟩ := mem_addKeys hset hrmem
      rw [hak] at hpk
      simp at hpk

/-- Witness for C10 at the all-missing shard state with a previously
existing projection file: both the plain rebuild and a no-candidate
run leave the old projection file exactly as it was. -/
theorem c10_empty_corpus_no_write_witness :
    rebuildLatest ⟨[none, none, none, none, none, none, none], some [exR1], none⟩ =
      ⟨[none, none, none, none, none, none, none], some [exR1], none⟩ ∧
    (run ⟨[none, none, none, none, none, none, none], some [exR1], none⟩
        [.response 200 []] "now").1.latest = some [exR1] := by
  have h := c10_empty_corpus_no_write
    ⟨[none, none, none, none, none, none, none], some [exR1], none⟩
    [.response 200 []] "now"
  exact ⟨h.1 (by decide), h.2 (by decide) (by decide)⟩
